import Mathlib

/-! # KZG polynomial commitments: coefficient-form prover and verifier

Shallow embedding of the KZG commitment library (`src/lib.rs` together with
its `polynomial` module).  The pairing groups G1, G2, GT of the `Engine` are
cyclic of prime order, so every group element is determined by its discrete
logarithm with respect to a fixed generator; we model a group element by that
exponent, an element of the scalar field `F`.  Group addition becomes field
addition, scalar multiplication becomes field multiplication,
`to_affine`/`to_curve` become the identity, and the bilinear pairing
`e(g1^a, g2^b) = e(g1, g2)^(a*b)` becomes multiplication of exponents.
Equality of group elements is equality of exponents, because the groups have
prime order and the pairing is non-degenerate.
-/

set_option linter.unusedSectionVars false

namespace KZG

variable {F : Type} [Field F] [DecidableEq F]

/-- Horner evaluation of a little-endian coefficient list:
`horner x [c0, c1, c2] = c0 + x * (c1 + x * c2)`. -/
def horner (x : F) : List F → F
  | [] => 0
  | c :: cs => c + x * horner x cs

/-- Modelled from the spec: the dense polynomial representation of the
`polynomial` module, which is declared in `src/lib.rs` (`pub mod polynomial`)
but whose source file is not present under `src/`.  A `Polynomial<E,
MAX_DEGREE>` is a fixed-capacity little-endian coefficient vector (index `i`
holds the coefficient of `x^i`) together with a declared degree; coefficients
beyond the declared degree are implicitly zero. -/
structure Polynomial (F : Type) where
  coeffs : List F
  degree : Nat
deriving DecidableEq

/-- Modelled from the spec: `Polynomial::new_from_coeffs(coeffs, degree)`. -/
def Polynomial.new_from_coeffs (coeffs : List F) (degree : Nat) : Polynomial F :=
  ⟨coeffs, degree⟩

/-- Modelled from the spec: `Polynomial::eval(x)` by Horner's method over the
declared coefficients `coeffs[0..=degree]`. -/
def Polynomial.eval (p : Polynomial F) (x : F) : F :=
  horner x (p.coeffs.take (p.degree + 1))

/-- One fuel-indexed pass of schoolbook polynomial long division on
big-endian coefficient lists: divides `a` by the divisor whose leading
(nonzero) coefficient is `lead` and whose remaining big-endian coefficients
are `dtail`.  Each step divides the leading coefficient of the running
dividend by `lead` (written with a fast path for monic divisors, equal to
`a0 * lead⁻¹` whenever `lead ≠ 0`), subtracts the corresponding multiple of
the divisor, and recurses; it stops when the running dividend is shorter than
the divisor, returning it as the remainder. -/
def divmodBEAux (lead : F) (dtail : List F) : Nat → List F → List F × List F
  | 0, a => ([], a)
  | _ + 1, [] => ([], [])
  | fuel + 1, a0 :: atail =>
    if atail.length < dtail.length then ([], a0 :: atail)
    else
      let c := if lead = 1 then a0 else a0 * lead⁻¹
      let reduced :=
        List.zipWith (fun u v => u - c * v) (atail.take dtail.length) dtail
          ++ atail.drop dtail.length
      let qr := divmodBEAux lead dtail fuel reduced
      (c :: qr.1, qr.2)

/-- Big-endian polynomial long division with enough fuel to run to
completion. -/
def divmodBE (lead : F) (dtail : List F) (a : List F) : List F × List F :=
  divmodBEAux lead dtail a.length a

/-- Pad a little-endian coefficient list with zeros up to the fixed capacity
`n` of the representation. -/
def padTo (n : Nat) (l : List F) : List F := l ++ List.replicate (n - l.length) 0

/-- Modelled from the spec: `Polynomial::long_division(divisor)` produces
`(quotient, Option<remainder>)`; the remainder is `none` exactly when the
division is exact (zero remainder) and `some r` otherwise.  The declared
coefficients of both polynomials are read off, the division is performed
big-endian starting at the divisor's actual leading nonzero coefficient, and
the results are padded back to the dividend's fixed capacity. -/
def Polynomial.long_division (dividend divisor : Polynomial F) :
    Polynomial F × Option (Polynomial F) :=
  let aBE := (dividend.coeffs.take (dividend.degree + 1)).reverse
  let dBE := ((divisor.coeffs.take (divisor.degree + 1)).reverse).dropWhile
    fun c => decide (c = 0)
  match dBE with
  | [] => (dividend, some dividend)
  | lead :: dtail =>
    let qr := divmodBE lead dtail aBE
    let q : Polynomial F :=
      ⟨padTo dividend.coeffs.length qr.1.reverse, dividend.degree - divisor.degree⟩
    if ∀ c ∈ qr.2, c = 0 then (q, none)
    else (q, some ⟨padTo dividend.coeffs.length qr.2.reverse, divisor.degree - 1⟩)

/-- `KZGParams<E, MAX_DEGREE>` in the exponent model: `g` and `h` are the
discrete logs of the stored G1/G2 points, `gs`/`hs` the discrete logs of the
SRS points `g^(α^1), g^(α^2), ...` and `h^(α^1), h^(α^2), ...`.  The fixed
array size `MAX_DEGREE` is `gs.length`. -/
structure KZGParams (F : Type) where
  g : F
  h : F
  gs : List F
  hs : List F

/-- `KZGError` (lines 35–41 of `src/lib.rs`). -/
inductive KZGError where
  | NoPolynomial
  | PointNotOnPolynomial
deriving DecidableEq

/-- `KZGProver<E, MAX_DEGREE>` (lines 44–50 of `src/lib.rs`); commitments,
batch witnesses and cached witnesses are group elements, modelled by their
exponents. -/
structure KZGProver (F : Type) where
  parameters : KZGParams F
  polynomial : Option (Polynomial F)
  commitment : Option F
  batch_witness : Option F
  witnesses : List (Option F)

/-- `KZGVerifier<E, MAX_DEGREE>` (lines 52–54 of `src/lib.rs`). -/
structure KZGVerifier (F : Type) where
  parameters : KZGParams F

/-- The bilinear pairing `e : G1 × G2 → GT` in the exponent model:
`e(g1^a, g2^b) = e(g1, g2)^(a*b)`. -/
def pairing (a b : F) : F := a * b

/-- The multi-scalar-multiplication accumulation loop
`for (i, coeff) in coeffs.iter().enumerate() { acc += (if i == 0 { g } else
{ gs[i-1] }) * coeff }`, written out identically at lines 69–76, 102–109 and
121–128 of `src/lib.rs`; `i` is the index the enumeration starts from. -/
def commitFrom (params : KZGParams F) : Nat → List F → F
  | _, [] => 0
  | i, c :: cs =>
    (if i = 0 then params.g else params.gs.getD (i - 1) 0) * c
      + commitFrom params (i + 1) cs

/-- `KZGProver::new` (lines 58–66): all optional state starts out empty. -/
def KZGProver.new (parameters : KZGParams F) : KZGProver F :=
  { parameters := parameters
    polynomial := none
    commitment := none
    batch_witness := none
    witnesses := List.replicate parameters.gs.length none }

/-- `KZGProver::commit` (lines 68–80): accumulates the commitment, stores the
polynomial (and nothing else) in the prover state, and returns the
commitment.  The method takes `&mut self`, so the updated state is returned
alongside the result. -/
def KZGProver.commit (pr : KZGProver F) (polynomial : Polynomial F) :
    F × KZGProver F :=
  (commitFrom pr.parameters 0 polynomial.coeffs,
    { pr with polynomial := some polynomial })

/-- `KZGProver::open` (lines 82–84); `open` is a Lean keyword, hence the
name. -/
def KZGProver.openPoly (pr : KZGProver F) : Except KZGError (Polynomial F) :=
  match pr.polynomial with
  | none => .error .NoPolynomial
  | some p => .ok p

/-- The divisor `X - x` built by `create_witness` (lines 94–96): a fresh
capacity-`MAX_DEGREE` zero polynomial of declared degree 1 whose coefficient
0 is set to `-x` and coefficient 1 to `1`. -/
def divisorPoly (x : F) (maxDegree : Nat) : Polynomial F :=
  let d := Polynomial.new_from_coeffs (List.replicate maxDegree (0 : F)) 1
  { d with coeffs := (d.coeffs.set 0 (-x)).set 1 1 }

/-- `KZGProver::create_witness` (lines 86–116): with no committed polynomial
it fails with `NoPolynomial`; otherwise it forms `dividend = p - y`
(subtracting `y` from coefficient 0), divides by `X - x`, fails with
`PointNotOnPolynomial` on a nonzero remainder, and otherwise commits the
quotient `psi` with the same accumulation loop as `commit`.  The method takes
`&mut self`, so the (unchanged) state is returned alongside the result. -/
def KZGProver.createWitness (pr : KZGProver F) (x y : F) :
    Except KZGError F × KZGProver F :=
  match pr.polynomial with
  | none => (.error .NoPolynomial, pr)
  | some polynomial =>
    let dividend : Polynomial F :=
      { polynomial with
        coeffs := polynomial.coeffs.set 0 (polynomial.coeffs.getD 0 0 - y) }
    let divisor := divisorPoly x pr.parameters.gs.length
    let ld := dividend.long_division divisor
    match ld.2 with
    | some _ => (.error .PointNotOnPolynomial, pr)
    | none => (.ok (commitFrom pr.parameters 0 ld.1.coeffs), pr)

/-- `KZGVerifier::verify_poly` (lines 120–131): recompute the commitment of
the given polynomial with the same accumulation loop and compare. -/
def KZGVerifier.verify_poly (v : KZGVerifier F) (commitment : F)
    (polynomial : Polynomial F) : Bool :=
  decide (commitFrom v.parameters 0 polynomial.coeffs = commitment)

/-- `KZGVerifier::verify_eval` (lines 133–144), transcribed literally: the
left pairing is `e(witness, hs[0] + h * (-x))` and the right pairing is
`e(commitment - g * (-y), h)`. -/
def KZGVerifier.verify_eval (v : KZGVerifier F) (x y commitment w : F) : Bool :=
  let lhs := pairing w (v.parameters.hs.getD 0 0 + v.parameters.h * (-x))
  let rhs := pairing (commitment - v.parameters.g * (-y)) v.parameters.h
  decide (lhs = rhs)

/-- The prover operations reachable from the public surface of
`src/lib.rs`. -/
inductive ProverOp (F : Type) where
  | commitOp (p : Polynomial F)
  | openOp
  | witnessOp (x y : F)

/-- Run one prover method, keeping the state it leaves behind (`open` takes
`&self` and cannot mutate). -/
def applyOp (pr : KZGProver F) : ProverOp F → KZGProver F
  | .commitOp p => (pr.commit p).2
  | .openOp => pr
  | .witnessOp x y => (pr.createWitness x y).2

/-- Run a finite sequence of prover methods from a given state. -/
def runOps (pr : KZGProver F) (ops : List (ProverOp F)) : KZGProver F :=
  ops.foldl applyOp pr

deriving instance DecidableEq for Except

instance : Fact (Nat.Prime 101) := ⟨by norm_num⟩

/-- A concrete SRS over the toy field `ZMod 101`, as produced by `setup` from
the secret `α = 5` with `MAX_DEGREE = 2`: `gs = [α, α²]` and `hs = [α, α²]`
over the generators `g = h = 1` (exponent model). -/
def exParams : KZGParams (ZMod 101) :=
  { g := 1, h := 1, gs := [5, 25], hs := [5, 25] }

/-- The concrete polynomial `p(X) = 3 + 2·X` of the spec's worked scenario. -/
def pEx : Polynomial (ZMod 101) := Polynomial.new_from_coeffs [3, 2] 1

/-! ## Evaluation of big-endian coefficient lists -/

/-- Evaluation of a big-endian coefficient list at `t`. -/
def evalBE (t : F) (l : List F) : F := l.foldl (fun acc c => acc * t + c) 0

lemma evalBE_nil (t : F) : evalBE t ([] : List F) = 0 := rfl

lemma evalBE_def (t : F) (l : List F) :
    evalBE t l = l.foldl (fun acc c => acc * t + c) 0 := rfl

lemma foldl_horner_step (t : F) (l : List F) :
    ∀ a : F, l.foldl (fun acc c => acc * t + c) a = a * t ^ l.length + evalBE t l := by
  induction l with
  | nil => intro a; simp [evalBE]
  | cons c cs ih =>
    intro a
    simp only [List.foldl_cons, List.length_cons, evalBE]
    rw [ih (a * t + c), ih (0 * t + c)]
    ring

lemma evalBE_cons (t c : F) (l : List F) :
    evalBE t (c :: l) = c * t ^ l.length + evalBE t l := by
  simp only [evalBE, List.foldl_cons]
  rw [foldl_horner_step, ← evalBE_def t l]
  ring

lemma evalBE_append (t : F) (l₁ l₂ : List F) :
    evalBE t (l₁ ++ l₂) = evalBE t l₁ * t ^ l₂.length + evalBE t l₂ := by
  simp only [evalBE, List.foldl_append]
  rw [foldl_horner_step, ← evalBE_def t l₂, ← evalBE_def t l₁]

lemma horner_eq_evalBE (x : F) (l : List F) :
    horner x l = evalBE x l.reverse := by
  induction l with
  | nil => rfl
  | cons c cs ih =>
    simp only [horner, List.reverse_cons]
    rw [evalBE_append, ih]
    simp [evalBE]
    ring

lemma evalBE_zip_sub (t c : F) (l₁ : List F) : ∀ l₂ : List F, l₁.length = l₂.length →
    evalBE t (List.zipWith (fun u v => u - c * v) l₁ l₂)
      = evalBE t l₁ - c * evalBE t l₂ := by
  induction l₁ with
  | nil =>
    intro l₂ h
    have h2 : l₂ = [] := List.length_eq_zero.mp h.symm
    subst h2
    simp [evalBE]
  | cons u l₁ ih =>
    intro l₂ h
    cases l₂ with
    | nil => simp at h
    | cons v l₂ =>
      have hlen : l₁.length = l₂.length := by simpa using h
      simp only [List.zipWith_cons_cons]
      rw [evalBE_cons, evalBE_cons, evalBE_cons, ih l₂ hlen, List.length_zipWith, hlen,
        min_self]
      ring

/-! ## Long-division lemmas -/

lemma reduced_length (c : F) (dtail atail : List F) (hm : dtail.length ≤ atail.length) :
    (List.zipWith (fun u v => u - c * v) (atail.take dtail.length) dtail
      ++ atail.drop dtail.length).length = atail.length := by
  simp only [List.length_append, List.length_zipWith, List.length_take, List.length_drop]
  omega

lemma div_step_coeff (a0 lead : F) (hlead : lead ≠ 0) :
    (if lead = 1 then a0 else a0 * lead⁻¹) * lead = a0 := by
  by_cases h1 : lead = 1
  · rw [if_pos h1, h1, mul_one]
  · rw [if_neg h1, mul_assoc, inv_mul_cancel₀ hlead, mul_one]

lemma divmodBEAux_fst_length (lead : F) (dtail : List F) :
    ∀ (fuel : Nat) (a : List F), a.length ≤ fuel →
      (divmodBEAux lead dtail fuel a).1.length = a.length - dtail.length := by
  intro fuel
  induction fuel with
  | zero =>
    intro a ha
    have h0 : a = [] := List.length_eq_zero.mp (Nat.le_zero.mp ha)
    subst h0
    simp [divmodBEAux]
  | succ fuel ih =>
    intro a ha
    cases a with
    | nil => simp [divmodBEAux]
    | cons a0 atail =>
      simp only [List.length_cons] at ha
      by_cases hlt : atail.length < dtail.length
      · simp only [divmodBEAux, if_pos hlt, List.length_nil, List.length_cons]
        omega
      · have hm : dtail.length ≤ atail.length := Nat.le_of_not_lt hlt
        simp only [divmodBEAux, if_neg hlt, List.length_cons]
        rw [ih _ (by rw [reduced_length _ _ _ hm]; omega : _ ≤ fuel)]
        rw [reduced_length _ _ _ hm]
        omega

lemma divmodBEAux_snd_length (lead : F) (dtail : List F) :
    ∀ (fuel : Nat) (a : List F), a.length ≤ fuel →
      (divmodBEAux lead dtail fuel a).2.length ≤ dtail.length := by
  intro fuel
  induction fuel with
  | zero =>
    intro a ha
    have h0 : a = [] := List.length_eq_zero.mp (Nat.le_zero.mp ha)
    subst h0
    simp [divmodBEAux]
  | succ fuel ih =>
    intro a ha
    cases a with
    | nil => simp [divmodBEAux]
    | cons a0 atail =>
      simp only [List.length_cons] at ha
      by_cases hlt : atail.length < dtail.length
      · simp only [divmodBEAux, if_pos hlt, List.length_cons]
        omega
      · have hm : dtail.length ≤ atail.length := Nat.le_of_not_lt hlt
        simp only [divmodBEAux, if_neg hlt]
        exact ih _ (by rw [reduced_length _ _ _ hm]; omega)

lemma divmodBEAux_spec (lead : F) (hlead : lead ≠ 0) (dtail : List F) (t : F) :
    ∀ (fuel : Nat) (a : List F), a.length ≤ fuel →
      evalBE t a
        = evalBE t (divmodBEAux lead dtail fuel a).1
            * (lead * t ^ dtail.length + evalBE t dtail)
          + evalBE t (divmodBEAux lead dtail fuel a).2 := by
  intro fuel
  induction fuel with
  | zero =>
    intro a ha
    have h0 : a = [] := List.length_eq_zero.mp (Nat.le_zero.mp ha)
    subst h0
    simp [divmodBEAux, evalBE]
  | succ fuel ih =>
    intro a ha
    cases a with
    | nil => simp [divmodBEAux, evalBE]
    | cons a0 atail =>
      simp only [List.length_cons] at ha
      by_cases hlt : atail.length < dtail.length
      · simp only [divmodBEAux, if_pos hlt]
        simp [evalBE_nil]
      · have hm : dtail.length ≤ atail.length := Nat.le_of_not_lt hlt
        simp only [divmodBEAux, if_neg hlt]
        set c := if lead = 1 then a0 else a0 * lead⁻¹ with hc
        set reduced := List.zipWith (fun u v => u - c * v) (atail.take dtail.length) dtail
          ++ atail.drop dtail.length with hreduced
        have hredlen : reduced.length = atail.length := reduced_length c dtail atail hm
        have hafuel : reduced.length ≤ fuel := by
          rw [hredlen]; omega
        have hIH := ih reduced hafuel
        have hqlen : (divmodBEAux lead dtail fuel reduced).1.length
            = atail.length - dtail.length := by
          rw [divmodBEAux_fst_length lead dtail fuel reduced hafuel, hredlen]
        -- evaluate the reduced dividend
        have htake : (atail.take dtail.length).length = dtail.length :=
          by rw [List.length_take]; omega
        have hzip : evalBE t (List.zipWith (fun u v => u - c * v)
              (atail.take dtail.length) dtail)
            = evalBE t (atail.take dtail.length) - c * evalBE t dtail :=
          evalBE_zip_sub t c _ dtail htake
        have hsplit : evalBE t atail
            = evalBE t (atail.take dtail.length) * t ^ (atail.length - dtail.length)
              + evalBE t (atail.drop dtail.length) := by
          have h1 := evalBE_append t (atail.take dtail.length) (atail.drop dtail.length)
          rw [List.take_append_drop, List.length_drop] at h1
          exact h1
        have hred : evalBE t reduced
            = evalBE t atail - c * evalBE t dtail * t ^ (atail.length - dtail.length) := by
          rw [hreduced, evalBE_append, hzip, List.length_drop, hsplit]
          ring
        -- assemble
        rw [evalBE_cons, evalBE_cons, hqlen]
        have hpow : t ^ atail.length
            = t ^ (atail.length - dtail.length) * t ^ dtail.length :=
          (pow_sub_mul_pow t hm).symm
        rw [hpow]
        have hstep : c * lead = a0 := div_step_coeff a0 lead hlead
        rw [hred] at hIH
        linear_combination hIH
          - (t ^ (atail.length - dtail.length) * t ^ dtail.length) * hstep

lemma divmodBE_spec (lead : F) (hlead : lead ≠ 0) (dtail : List F) (t : F) (a : List F) :
    evalBE t a
      = evalBE t (divmodBE lead dtail a).1 * (lead * t ^ dtail.length + evalBE t dtail)
        + evalBE t (divmodBE lead dtail a).2 :=
  divmodBEAux_spec lead hlead dtail t a.length a le_rfl

lemma divmodBE_snd_length (lead : F) (dtail : List F) (a : List F) :
    (divmodBE lead dtail a).2.length ≤ dtail.length :=
  divmodBEAux_snd_length lead dtail a.length a le_rfl

/-- The remainder of division by the monic linear `X - x` vanishes exactly
when the dividend vanishes at `x`. -/
lemma divmodBE_linear_exact (x : F) (a : List F) :
    (∀ c ∈ (divmodBE 1 [-x] a).2, c = 0) ↔ evalBE x a = 0 := by
  have hspec := divmodBE_spec (1 : F) one_ne_zero [-x] x a
  have hD : (1 : F) * x ^ ([-x] : List F).length + evalBE x [-x] = 0 := by
    simp [evalBE]
  rw [hD, mul_zero, zero_add] at hspec
  have hlen := divmodBE_snd_length (1 : F) [-x] a
  rcases hr : (divmodBE 1 [-x] a).2 with _ | ⟨r0, rtail⟩
  · rw [hr, evalBE_nil] at hspec
    simp [hspec]
  · rw [hr] at hlen hspec
    have hrtail : rtail = [] := by
      cases rtail with
      | nil => rfl
      | cons r1 rs =>
        exfalso
        simp only [List.length_cons, List.length_nil] at hlen
        omega
    subst hrtail
    have hval : evalBE x [r0] = r0 := by
      rw [evalBE_cons, evalBE_nil]; simp
    rw [hval] at hspec
    simp [hspec]

/-! ## The divisor `X - x` and `long_division` by it -/

lemma divisorPoly_coeffs (x : F) (D : Nat) (hD : 2 ≤ D) :
    (divisorPoly x D).coeffs = -x :: 1 :: List.replicate (D - 2) (0 : F) := by
  obtain ⟨k, rfl⟩ : ∃ k, D = k + 2 := ⟨D - 2, by omega⟩
  simp [divisorPoly, Polynomial.new_from_coeffs, List.replicate_succ]

lemma divisorPoly_degree (x : F) (D : Nat) : (divisorPoly x D).degree = 1 := rfl

lemma long_division_by_linear (dividend : Polynomial F) (x : F) (D : Nat) (hD : 2 ≤ D) :
    (dividend.long_division (divisorPoly x D)).2 = none ↔ dividend.eval x = 0 := by
  have hdBE : (((divisorPoly x D).coeffs.take ((divisorPoly x D).degree + 1)).reverse).dropWhile
      (fun c => decide (c = 0)) = (1 : F) :: [-x] := by
    rw [divisorPoly_coeffs x D hD, divisorPoly_degree]
    simp [List.dropWhile, decide_eq_false (one_ne_zero (α := F))]
  have heval : dividend.eval x
      = evalBE x ((dividend.coeffs.take (dividend.degree + 1)).reverse) := by
    rw [Polynomial.eval, horner_eq_evalBE]
  have hkey := divmodBE_linear_exact x ((dividend.coeffs.take (dividend.degree + 1)).reverse)
  simp only [Polynomial.long_division, hdBE]
  by_cases hall : ∀ c ∈ (divmodBE (1 : F) [-x]
      ((dividend.coeffs.take (dividend.degree + 1)).reverse)).2, c = 0
  · rw [if_pos hall]
    simp only [true_iff]
    rw [heval]
    exact hkey.mp hall
  · rw [if_neg hall]
    constructor
    · intro h
      exact absurd h (by simp)
    · intro h
      exact ((hall (hkey.mpr (heval ▸ h)))).elim

lemma eval_set_sub (p : Polynomial F) (y x : F) (hne : p.coeffs ≠ []) :
    (Polynomial.mk (p.coeffs.set 0 (p.coeffs.getD 0 0 - y)) p.degree).eval x
      = p.eval x - y := by
  rcases p with ⟨coeffs, deg⟩
  cases coeffs with
  | nil => exact absurd rfl hne
  | cons c cs =>
    simp only [Polynomial.eval, List.set_cons_zero, List.getD_cons_zero,
      List.take_succ_cons, horner]
    ring

/-- `create_witness` takes `&mut self` but never writes `self`: the state it
returns is the state it was given.  Shared by the frame and invariant
theorems below. -/
lemma createWitness_snd (pr : KZGProver F) (x y : F) :
    (pr.createWitness x y).2 = pr := by
  rw [KZGProver.createWitness]
  cases hp : pr.polynomial with
  | none => rfl
  | some p =>
    dsimp only
    cases (({ p with coeffs := p.coeffs.set 0 (p.coeffs.getD 0 0 - y) } : Polynomial F).long_division
        (divisorPoly x pr.parameters.gs.length)).2 with
    | none => rfl
    | some r => rfl

/-- `commit` and `open` also never touch the `batch_witness` and `witnesses`
fields; neither does `create_witness`. -/
lemma applyOp_cache (pr : KZGProver F) (op : ProverOp F) :
    (applyOp pr op).batch_witness = pr.batch_witness
    ∧ (applyOp pr op).witnesses = pr.witnesses := by
  cases op with
  | commitOp p => exact ⟨rfl, rfl⟩
  | openOp => exact ⟨rfl, rfl⟩
  | witnessOp x y =>
    exact ⟨congrArg KZGProver.batch_witness (createWitness_snd pr x y),
      congrArg KZGProver.witnesses (createWitness_snd pr x y)⟩

lemma runOps_cache (ops : List (ProverOp F)) : ∀ pr : KZGProver F,
    (runOps pr ops).batch_witness = pr.batch_witness
    ∧ (runOps pr ops).witnesses = pr.witnesses := by
  induction ops with
  | nil => intro pr; exact ⟨rfl, rfl⟩
  | cons op ops ih =>
    intro pr
    have h1 := applyOp_cache pr op
    have h2 := ih (applyOp pr op)
    have hrun : runOps pr (op :: ops) = runOps (applyOp pr op) ops := rfl
    rw [hrun]
    exact ⟨h2.1.trans h1.1, h2.2.trans h1.2⟩

/-! ## The accumulation loop as a multi-scalar multiplication -/

lemma commitFrom_shift (params : KZGParams F) (cs : List F) :
    ∀ i : Nat, commitFrom params (i + 1) cs
      = ∑ j ∈ Finset.range cs.length, params.gs.getD (i + j) 0 * cs.getD j 0 := by
  induction cs with
  | nil => intro i; simp [commitFrom]
  | cons c cs ih =>
    intro i
    rw [commitFrom]
    simp only [Nat.succ_ne_zero, if_false, Nat.add_sub_cancel]
    rw [ih (i + 1), List.length_cons, Finset.sum_range_succ']
    simp only [List.getD_cons_succ, List.getD_cons_zero, Nat.add_zero]
    rw [add_comm]
    congr 1
    refine Finset.sum_congr rfl fun j _ => ?_
    congr 2
    omega

lemma getD_replicate_zero (n j : Nat) : (List.replicate n (0 : F)).getD j 0 = 0 := by
  induction n generalizing j with
  | zero => simp
  | succ n ih =>
    cases j with
    | zero => simp [List.replicate_succ]
    | succ j => simp [List.replicate_succ, List.getD_cons_succ, ih]

/-! ## Claims -/

/-- Claim C1: `verify_eval((x, y), C, W)` is claimed to return `true` iff
`e(W, hs[0]·h^{-x}) == e(C·g^{-y}, h)`.  The code instead compares against
`e(C - g·(-y), h) = e(C·g^{y}, h)` (line 139 of `src/lib.rs` subtracts
`g * -y` instead of `g * y`).  At the concrete input `x = 1`, `y = 1`,
`C = 5`, `W = 1` over the `α = 5` SRS, the claimed pairing equation holds
(both sides are `e(g,h)^4`) yet `verify_eval` returns `false`. -/
theorem verify_eval_checks_wrong_equation :
    pairing (1 : ZMod 101) (exParams.hs.getD 0 0 + exParams.h * (-1))
      = pairing (5 - 1 * exParams.g) exParams.h
    ∧ (KZGVerifier.mk exParams).verify_eval 1 1 5 1 = false := by
  decide

/-- Claim C2: witness soundness is claimed: for the committed `p` and
`y = p.eval(x)`, `create_witness` succeeds and `verify_eval` accepts.  On
the spec's own worked scenario — `p(X) = 3 + 2X`, SRS from secret `α = 5`,
`x = 1`, `y = p(1) = 5` — `create_witness` indeed returns `Ok` (with witness
exponent `2 = ψ(5)` for `ψ = (p - 5)/(X - 1) = 2`), but `verify_eval`
returns `false` because of the sign slip of line 139: it compares
`e(W, h^{α-x}) = e(g,h)^8` with `e(C + y·g, h) = e(g,h)^18` instead of
`e(C - y·g, h) = e(g,h)^8`. -/
theorem honest_witness_rejected :
    pEx.eval 1 = 5
    ∧ ((((KZGProver.new exParams).commit pEx).2).createWitness 1 5).1 = .ok 2
    ∧ (KZGVerifier.mk exParams).verify_eval 1 5
        ((KZGProver.new exParams).commit pEx).1 2 = false := by
  decide

/-- Claim C3: for a prover that has committed `p`, any point `x` and any
claimed value `y ≠ p.eval(x)`, `create_witness((x, y))` fails with
`PointNotOnPolynomial`, detected through the nonzero remainder of the long
division of `p - y` by `X - x`. -/
theorem create_witness_rejects_wrong_value (pr : KZGProver F) (p : Polynomial F)
    (x y : F)
    (hpoly : pr.polynomial = some p)
    (hcap : p.coeffs.length = pr.parameters.gs.length)
    (hD : 2 ≤ pr.parameters.gs.length)
    (hy : y ≠ p.eval x) :
    (pr.createWitness x y).1 = .error .PointNotOnPolynomial := by
  have hne : p.coeffs ≠ [] := by
    intro h
    rw [h] at hcap
    simp only [List.length_nil] at hcap
    omega
  have hev : (Polynomial.mk (p.coeffs.set 0 (p.coeffs.getD 0 0 - y)) p.degree).eval x
      ≠ 0 := by
    rw [eval_set_sub p y x hne]
    intro h
    exact hy (sub_eq_zero.mp h).symm
  have hld := long_division_by_linear
    (Polynomial.mk (p.coeffs.set 0 (p.coeffs.getD 0 0 - y)) p.degree) x
    pr.parameters.gs.length hD
  have hsome : ((Polynomial.mk (p.coeffs.set 0 (p.coeffs.getD 0 0 - y))
        p.degree).long_division (divisorPoly x pr.parameters.gs.length)).2
      ≠ none := fun h => hev (hld.mp h)
  obtain ⟨r, hr⟩ := Option.ne_none_iff_exists'.mp hsome
  rw [KZGProver.createWitness, hpoly]
  dsimp only
  rw [hr]

/-- Witness for claim C3 at the concrete committed polynomial `3 + 2X`, the
point `x = 1` and the wrong value `y = 6 ≠ p(1) = 5`. -/
theorem create_witness_rejects_wrong_value_witness :
    ((((KZGProver.new exParams).commit pEx).2).createWitness 1 6).1
      = .error .PointNotOnPolynomial :=
  create_witness_rejects_wrong_value (((KZGProver.new exParams).commit pEx).2) pEx 1 6
    rfl rfl (by decide) (by decide)

/-- Claim C4: the commitment returned by `commit(p)` is the multi-scalar
multiplication `coeffs[0]·g + Σ_{i≥1} coeffs[i]·gs[i-1]` of `p`'s
coefficients against the SRS. -/
theorem commit_is_msm (pr : KZGProver F) (p : Polynomial F) :
    (pr.commit p).1
      = p.coeffs.getD 0 0 * pr.parameters.g
        + ∑ i ∈ Finset.Ico 1 p.coeffs.length,
            p.coeffs.getD i 0 * pr.parameters.gs.getD (i - 1) 0 := by
  rcases p with ⟨coeffs, deg⟩
  cases coeffs with
  | nil => simp [KZGProver.commit, commitFrom]
  | cons c cs =>
    show commitFrom pr.parameters 0 (c :: cs) = _
    rw [commitFrom, if_pos rfl, commitFrom_shift pr.parameters cs 0]
    simp only [List.getD_cons_zero, List.length_cons]
    rw [Finset.sum_Ico_eq_sum_range]
    simp only [Nat.add_sub_cancel]
    have h1 : ∀ j ∈ Finset.range cs.length,
        (c :: cs).getD (1 + j) 0 * pr.parameters.gs.getD (1 + j - 1) 0
          = pr.parameters.gs.getD (0 + j) 0 * cs.getD j 0 := by
      intro j _
      have hj : 1 + j = j + 1 := by omega
      rw [hj, List.getD_cons_succ, mul_comm]
      congr 2
      omega
    rw [Finset.sum_congr rfl h1, mul_comm c pr.parameters.g]

/-- Claim C5: `verify_poly(C, p)` returns `true` exactly when the recomputed
coefficient-form commitment of `p` equals `C`; in particular, over shared
parameters, `verify_poly(commit(p), p)` returns `true`. -/
theorem verify_poly_iff_recompute (pr : KZGProver F) (C : F) (p : Polynomial F) :
    ((KZGVerifier.mk pr.parameters).verify_poly C p = true
      ↔ commitFrom pr.parameters 0 p.coeffs = C)
    ∧ (KZGVerifier.mk pr.parameters).verify_poly (pr.commit p).1 p = true := by
  constructor
  · simp [KZGVerifier.verify_poly]
  · simp [KZGVerifier.verify_poly, KZGProver.commit]

/-- Claim C6: a freshly constructed prover fails both `open()` and
`create_witness((x, y))` with `NoPolynomial`, for every `(x, y)`. -/
theorem fresh_prover_fails (params : KZGParams F) (x y : F) :
    (KZGProver.new params).openPoly = .error .NoPolynomial
    ∧ ((KZGProver.new params).createWitness x y).1 = .error .NoPolynomial :=
  ⟨rfl, rfl⟩

/-- Counterexample to claim C7: after `commit(p)` the prover's `commitment`
field is NOT `Some(C)` — line 78 of `src/lib.rs` stores only the polynomial,
so the field keeps its previous value (`None` for a fresh prover). -/
theorem commit_does_not_store_commitment :
    ((KZGProver.new exParams).commit pEx).2.commitment
      ≠ some ((KZGProver.new exParams).commit pEx).1 := by
  decide

/-- Claim C7 as amended: after `commit(p)` the stored polynomial equals `p`
and a subsequent `open()` returns `Ok(p)`, but the `commitment` field is
left unchanged (commit never writes it). -/
theorem commit_stores_polynomial_not_commitment (pr : KZGProver F) (p : Polynomial F) :
    (pr.commit p).2.polynomial = some p
    ∧ (pr.commit p).2.commitment = pr.commitment
    ∧ (pr.commit p).2.openPoly = .ok p :=
  ⟨rfl, rfl, rfl⟩

/-- Counterexample to claim C8: the fixed-capacity representation holds
`MAX_DEGREE` coefficients, not `MAX_DEGREE + 1` — the divisor that
`create_witness` builds with `MAX_DEGREE = 4` has 4 coefficients, not 5. -/
theorem divisor_capacity_not_maxdeg_succ :
    ¬ ((divisorPoly (3 : ZMod 101) 4).coeffs.length = 4 + 1) := by
  decide

/-- Claim C8 as amended: under the const parameter `MAX_DEGREE` the
fixed-capacity representation holds exactly `MAX_DEGREE` coefficients
(supporting declared degrees up to `MAX_DEGREE - 1`); the divisor built by
`create_witness` has `MAX_DEGREE` coefficients, declared degree 1, and zero
coefficients at every index `i ≥ 2` beyond its declared degree. -/
theorem divisor_capacity (x : F) (D i : Nat) (hD : 2 ≤ D) (hi : 2 ≤ i) :
    (divisorPoly x D).coeffs.length = D
    ∧ (divisorPoly x D).degree = 1
    ∧ (divisorPoly x D).coeffs.getD i 0 = 0 := by
  refine ⟨?_, rfl, ?_⟩
  · simp [divisorPoly, Polynomial.new_from_coeffs]
  · rw [divisorPoly_coeffs x D hD]
    obtain ⟨j, rfl⟩ : ∃ j, i = j + 2 := ⟨i - 2, by omega⟩
    simp only [List.getD_cons_succ]
    exact getD_replicate_zero (D - 2) j

/-- Witness for the amended claim C8 at `x = 3`, `MAX_DEGREE = 4`,
index `i = 2`. -/
theorem divisor_capacity_witness :
    (divisorPoly (3 : ZMod 101) 4).coeffs.length = 4
    ∧ (divisorPoly (3 : ZMod 101) 4).degree = 1
    ∧ (divisorPoly (3 : ZMod 101) 4).coeffs.getD 2 0 = 0 :=
  divisor_capacity 3 4 2 (by decide) (by decide)

/-- Claim C9: `create_witness` never mutates the prover: the returned state
is the given state, field by field, whether the result is `Ok` or `Err`. -/
theorem create_witness_preserves_prover (pr : KZGProver F) (x y : F) :
    (pr.createWitness x y).2 = pr
    ∧ (pr.createWitness x y).2.polynomial = pr.polynomial
    ∧ (pr.createWitness x y).2.commitment = pr.commitment
    ∧ (pr.createWitness x y).2.batch_witness = pr.batch_witness
    ∧ (pr.createWitness x y).2.witnesses = pr.witnesses := by
  have h := createWitness_snd pr x y
  exact ⟨h, by rw [h], by rw [h], by rw [h], by rw [h]⟩

/-- Claim C10: starting from `KZGProver::new`, no finite sequence of
`commit` / `open` / `create_witness` calls ever populates the `batch_witness`
field or any entry of the `witnesses` cache: they stay `None` throughout. -/
theorem witness_cache_never_populated (params : KZGParams F) (ops : List (ProverOp F)) :
    (runOps (KZGProver.new params) ops).batch_witness = none
    ∧ ∀ w ∈ (runOps (KZGProver.new params) ops).witnesses, w = none := by
  have h := runOps_cache ops (KZGProver.new params)
  refine ⟨h.1.trans rfl, ?_⟩
  rw [h.2]
  intro w hw
  have hw2 : w ∈ List.replicate params.gs.length (none : Option F) := hw
  exact List.eq_of_mem_replicate hw2

end KZG
